import Mathlib

set_option maxRecDepth 100000

/-!
Shallow embedding of the pycon25-miner proof-of-work mini-game:
the proof-of-work engine (miner.py), the ledger, rate limiter and
coordinator (broadcaster.py), and the wire codec (broadcaster.py /
myclient.py), together with theorems settling the specification claims.

Machine integers are modelled as `Nat` with explicit reduction modulo
2^32 where the SHA-256 compression function overflows; fallible code is
modelled with `Option` / `Except`.
-/

namespace Pycon

/-! ### SHA-256 over `Nat` (embedding of hashlib.sha256(...).hexdigest()) -/

/-- Reduce a natural number to a 32-bit word. -/
def w32 (n : Nat) : Nat := n % 4294967296

/-- Right rotation of a 32-bit word by `n` places (0 < n < 32). -/
def rotr (n x : Nat) : Nat := w32 ((x >>> n) ||| (x <<< (32 - n)))

/-- Bitwise complement of a 32-bit word. -/
def bnot32 (x : Nat) : Nat := 4294967295 ^^^ x

/-- The SHA-256 choice function. -/
def ch (x y z : Nat) : Nat := (x &&& y) ^^^ (bnot32 x &&& z)

/-- The SHA-256 majority function. -/
def maj (x y z : Nat) : Nat := (x &&& y) ^^^ (x &&& z) ^^^ (y &&& z)

/-- The SHA-256 big sigma-0 function. -/
def bigSigma0 (x : Nat) : Nat := rotr 2 x ^^^ rotr 13 x ^^^ rotr 22 x

/-- The SHA-256 big sigma-1 function. -/
def bigSigma1 (x : Nat) : Nat := rotr 6 x ^^^ rotr 11 x ^^^ rotr 25 x

/-- The SHA-256 small sigma-0 function. -/
def smallSigma0 (x : Nat) : Nat := rotr 7 x ^^^ rotr 18 x ^^^ (x >>> 3)

/-- The SHA-256 small sigma-1 function. -/
def smallSigma1 (x : Nat) : Nat := rotr 17 x ^^^ rotr 19 x ^^^ (x >>> 10)

/-- The 64 SHA-256 round constants. -/
def K : List Nat :=
  [1116352408, 1899447441, 3049323471, 3921009573, 961987163,
   1508970993, 2453635748, 2870763221, 3624381080, 310598401,
   607225278, 1426881987, 1925078388, 2162078206, 2614888103,
   3248222580, 3835390401, 4022224774, 264347078, 604807628,
   770255983, 1249150122, 1555081692, 1996064986, 2554220882,
   2821834349, 2952996808, 3210313671, 3336571891, 3584528711,
   113926993, 338241895, 666307205, 773529912, 1294757372,
   1396182291, 1695183700, 1986661051, 2177026350, 2456956037,
   2730485921, 2820302411, 3259730800, 3345764771, 3516065817,
   3600352804, 4094571909, 275423344, 430227734, 506948616,
   659060556, 883997877, 958139571, 1322822218, 1537002063,
   1747873779, 1955562222, 2024104815, 2227730452, 2361852424,
   2428436474, 2756734187, 3204031479, 3329325298]

/-- The initial SHA-256 hash state. -/
def H0 : List Nat :=
  [1779033703, 3144134277, 1013904242, 2773480762, 1359893119,
   2600822924, 528734635, 1541459225]

/-- Big-endian byte rendering of a value, `width` bytes wide. -/
def beBytes : Nat → Nat → List Nat
  | 0, _ => []
  | w + 1, v => beBytes w (v / 256) ++ [v % 256]

/-- SHA-256 padding: append `0x80`, zero bytes to reach 56 mod 64, then
the 64-bit big-endian bit length. -/
def padMessage (msg : List Nat) : List Nat :=
  let len := msg.length
  let zeros := (119 - len % 64) % 64
  msg ++ [0x80] ++ List.replicate zeros 0 ++ beBytes 8 (len * 8)

/-- Accumulate 64-byte chunks: `cur` holds the current chunk reversed,
`cap` the remaining capacity of the current chunk. -/
def chunksAux : List Nat → List Nat → Nat → List (List Nat)
  | [], cur, _ => if cur.isEmpty then [] else [cur.reverse]
  | x :: xs, cur, 0 => cur.reverse :: chunksAux xs [x] 63
  | x :: xs, cur, cap + 1 => chunksAux xs (x :: cur) cap

/-- Split a byte sequence into 64-byte chunks. -/
def chunks64 (l : List Nat) : List (List Nat) := chunksAux l [] 64

/-- Assemble big-endian 32-bit words from groups of four bytes. -/
def toWords : List Nat → List Nat
  | b0 :: b1 :: b2 :: b3 :: rest =>
      (b0 * 16777216 + b1 * 65536 + b2 * 256 + b3) :: toWords rest
  | _ => []

/-- Extend a 16-word message schedule by `n` further words. -/
def extendSchedule : Nat → List Nat → List Nat
  | 0, W => W
  | n + 1, W =>
    let i := W.length
    let w := w32 (smallSigma1 (W.getD (i - 2) 0) + W.getD (i - 7) 0 +
                  smallSigma0 (W.getD (i - 15) 0) + W.getD (i - 16) 0)
    extendSchedule n (W ++ [w])

/-- One round of the SHA-256 compression function on the 8-word state. -/
def compressStep (st : List Nat) (kw : Nat × Nat) : List Nat :=
  match st with
  | [a, b, c, d, e, f, g, h] =>
    let t1 := w32 (h + bigSigma1 e + ch e f g + kw.1 + kw.2)
    let t2 := w32 (bigSigma0 a + maj a b c)
    [w32 (t1 + t2), a, b, c, w32 (d + t1), e, f, g]
  | other => other

/-- Process one 64-byte block, updating the 8-word hash state. -/
def processBlock (st : List Nat) (block : List Nat) : List Nat :=
  let W := extendSchedule 48 (toWords block)
  let st' := (K.zip W).foldl compressStep st
  List.zipWith (fun x y => w32 (x + y)) st st'

/-- SHA-256 of a byte sequence, as the final 8-word hash state. -/
def sha256words (msg : List Nat) : List Nat :=
  (chunks64 (padMessage msg)).foldl processBlock H0

/-- Hex digit character for a value below 16 (lowercase). -/
def toHexDigit (n : Nat) : Char :=
  if n < 10 then Char.ofNat (48 + n) else Char.ofNat (87 + n)

/-- Fixed-width lowercase hex rendering of a value. -/
def toHexFixed : Nat → Nat → List Char
  | 0, _ => []
  | w + 1, v => toHexFixed w (v / 16) ++ [toHexDigit (v % 16)]

/-- UTF-8 encoding of one character, as its byte values. -/
def utf8EncodeChar (c : Char) : List Nat :=
  let n := c.toNat
  if n < 0x80 then [n]
  else if n < 0x800 then
    [0xc0 ||| (n >>> 6), 0x80 ||| (n &&& 0x3f)]
  else if n < 0x10000 then
    [0xe0 ||| (n >>> 12), 0x80 ||| ((n >>> 6) &&& 0x3f), 0x80 ||| (n &&& 0x3f)]
  else
    [0xf0 ||| (n >>> 18), 0x80 ||| ((n >>> 12) &&& 0x3f),
     0x80 ||| ((n >>> 6) &&& 0x3f), 0x80 ||| (n &&& 0x3f)]

/-- UTF-8 byte encoding of a string (embedding of str.encode()). -/
def strBytes (s : String) : List Nat := (s.data.map utf8EncodeChar).flatten

/-- Embedding of miner.sha256hash: lowercase hex digest of the UTF-8
encoding of the string. -/
def sha256hash (s : String) : String :=
  String.mk (((sha256words (strBytes s)).map (toHexFixed 8)).flatten)

/-! ### Decimal rendering and parsing (embedding of f-string / int()) -/

/-- Decimal digit character for a value below 10. -/
def digitChar : Nat → Char
  | 0 => '0' | 1 => '1' | 2 => '2' | 3 => '3' | 4 => '4'
  | 5 => '5' | 6 => '6' | 7 => '7' | 8 => '8' | _ => '9'

/-- Decimal digits of `n`, most significant first; `fuel` bounds the
recursion (any `fuel > n` gives the exact digits). -/
def decDigitsAux : Nat → Nat → List Char
  | 0, _ => []
  | fuel + 1, n =>
    if n < 10 then [digitChar n]
    else decDigitsAux fuel (n / 10) ++ [digitChar (n % 10)]

/-- Decimal rendering of a natural number (embedding of f-strings such
as f-quote-{nonce}-quote applied to a non-negative int). -/
def natToDec (n : Nat) : String := String.mk (decDigitsAux (n + 1) n)

/-- Whether a character is a decimal digit (regex class [0-9]). -/
def isDigitChar (c : Char) : Bool := 48 ≤ c.toNat && c.toNat ≤ 57

/-- Whether a character is a lowercase hex digit (regex class [0-9a-f]). -/
def isLowerHex (c : Char) : Bool := isDigitChar c || (97 ≤ c.toNat && c.toNat ≤ 102)

/-- Numeric value of a list of decimal digit characters (embedding of
int() applied to a nonempty all-digit string). -/
def decToNat (cs : List Char) : Nat :=
  cs.foldl (fun a c => a * 10 + (c.toNat - 48)) 0

/-! ### The proof-of-work engine (miner.py) -/

/-- Embedding of miner.verify: the first `difficulty` characters of the
hex digest must all be the character zero (Python slice comparison). -/
def verify (hashed : String) (difficulty : Nat) : Bool :=
  hashed.data.take difficulty == List.replicate difficulty '0'

/-- Embedding of miner.validate: hash the string `nonce:message` and
return the digest when `verify` accepts it, none otherwise. -/
def validate (nonce : Nat) (message : String) (difficulty : Nat) : Option String :=
  let hashed := sha256hash (natToDec nonce ++ ":" ++ message)
  if verify hashed difficulty then some hashed else none

/-- Embedding of miner.mine: scan nonces upward from `begin_nonce` until
`validate` succeeds. The source loops unboundedly; `fuel` bounds the
number of loop iterations, and termination of the source is expressed as
the existence of a sufficient fuel. -/
def mine (text : String) (difficulty : Nat) : Nat → Nat → Option (Nat × String)
  | 0, _ => none
  | fuel + 1, nonce =>
    match validate nonce text difficulty with
    | some hashed => some (nonce, hashed)
    | none => mine text difficulty fuel (nonce + 1)

/-! ### Shape lemmas about the digest -/

theorem toHexFixed_length (w v : Nat) : (toHexFixed w v).length = w := by
  induction w generalizing v with
  | zero => rfl
  | succ w ih => simp [toHexFixed, ih]

theorem compressStep_length (st : List Nat) (kw : Nat × Nat) :
    (compressStep st kw).length = st.length := by
  unfold compressStep
  split <;> rfl

theorem foldl_compressStep_length (l : List (Nat × Nat)) (st : List Nat) :
    (l.foldl compressStep st).length = st.length := by
  induction l generalizing st with
  | nil => rfl
  | cons kw l ih => rw [List.foldl_cons, ih, compressStep_length]

theorem processBlock_length (st block : List Nat) :
    (processBlock st block).length = st.length := by
  unfold processBlock
  rw [List.length_zipWith, foldl_compressStep_length, Nat.min_self]

theorem foldl_processBlock_length (bs : List (List Nat)) (st : List Nat) :
    (bs.foldl processBlock st).length = st.length := by
  induction bs generalizing st with
  | nil => rfl
  | cons b bs ih => rw [List.foldl_cons, ih, processBlock_length]

theorem sha256words_length (msg : List Nat) : (sha256words msg).length = 8 := by
  unfold sha256words
  rw [foldl_processBlock_length]
  rfl

theorem flatten_map_toHexFixed_length (l : List Nat) :
    ((l.map (toHexFixed 8)).flatten).length = 8 * l.length := by
  induction l with
  | nil => rfl
  | cons x l ih =>
    simp [List.flatten_cons, toHexFixed_length, ih, Nat.mul_succ, Nat.add_comm]

theorem sha256hash_length (s : String) : (sha256hash s).length = 64 := by
  show ((sha256words (strBytes s)).map (toHexFixed 8)).flatten.length = 64
  rw [flatten_map_toHexFixed_length, sha256words_length]

theorem toHexDigit_isLowerHex (v : Nat) (h : v < 16) :
    isLowerHex (toHexDigit v) = true := by
  interval_cases v <;> decide

theorem toHexFixed_isLowerHex (w v : Nat) :
    ∀ c ∈ toHexFixed w v, isLowerHex c = true := by
  induction w generalizing v with
  | zero => intro c hc; cases hc
  | succ w ih =>
    intro c hc
    rcases List.mem_append.mp hc with h | h
    · exact ih _ c h
    · rcases List.mem_singleton.mp h with rfl
      exact toHexDigit_isLowerHex _ (Nat.mod_lt _ (by omega))

theorem sha256hash_isLowerHex (s : String) :
    ∀ c ∈ (sha256hash s).data, isLowerHex c = true := by
  intro c hc
  rcases List.mem_flatten.mp hc with ⟨block, hb, hcb⟩
  rcases List.mem_map.mp hb with ⟨v, _, rfl⟩
  exact toHexFixed_isLowerHex 8 v c hcb

/-! ### Claims about the proof-of-work engine -/

/-- C1: for every nonce `n`, message `m` and difficulty `d`, `validate`
returns the lowercase hex SHA-256 digest of the string `n:m` exactly when
the first `d` hex characters of that digest are all the zero character,
and returns none otherwise; the digest has 64 lowercase hex characters. -/
theorem validate_returns_digest_iff_leading_zeros (n : Nat) (m : String) (d : Nat) :
    (validate n m d = some (sha256hash (natToDec n ++ ":" ++ m)) ↔
      (sha256hash (natToDec n ++ ":" ++ m)).data.take d = List.replicate d '0')
    ∧ (validate n m d = none ↔
      ¬ (sha256hash (natToDec n ++ ":" ++ m)).data.take d = List.replicate d '0')
    ∧ (sha256hash (natToDec n ++ ":" ++ m)).length = 64
    ∧ (∀ c ∈ (sha256hash (natToDec n ++ ":" ++ m)).data, isLowerHex c = true) := by
  refine ⟨?_, ?_, sha256hash_length _, sha256hash_isLowerHex _⟩ <;>
    · simp only [validate, verify]
      split <;> rename_i h <;> simp_all

/-- C10: at any difficulty strictly above 64 (the digest's hex length),
`verify` rejects every digest and `validate` succeeds on no nonce. -/
theorem verify_false_above_64 (d : Nat) (hd : 64 < d) :
    (∀ s : String, verify (sha256hash s) d = false)
    ∧ (∀ (n : Nat) (m : String), validate n m d = none) := by
  have key : ∀ s : String, verify (sha256hash s) d = false := by
    intro s
    have h1 : (sha256hash s).data.length = 64 := sha256hash_length s
    simp only [verify, beq_eq_false_iff_ne, ne_eq]
    intro heq
    have := congrArg List.length heq
    rw [List.length_take, List.length_replicate] at this
    omega
  exact ⟨key, fun n m => by simp [validate, key]⟩

/-- Witness for the above at difficulty 65 and concrete inputs. -/
theorem verify_false_above_64_witness :
    verify (sha256hash "pycon") 65 = false ∧ validate 3 "m" 65 = none :=
  ⟨(verify_false_above_64 65 (by decide)).1 "pycon",
   (verify_false_above_64 65 (by decide)).2 3 "m"⟩

theorem mine_reaches (m : String) (d : Nat) :
    ∀ (fuel n0 n : Nat), n0 ≤ n → n - n0 < fuel →
      (∀ k, n0 ≤ k → k < n → validate k m d = none) →
      (validate n m d).isSome = true →
      ∃ hsh, mine m d fuel n0 = some (n, hsh) ∧ validate n m d = some hsh := by
  intro fuel
  induction fuel with
  | zero => intro n0 n h1 h2 _ _; omega
  | succ fuel ih =>
    intro n0 n h1 h2 hnone hsome
    by_cases he : n0 = n
    · subst he
      rcases Option.isSome_iff_exists.mp hsome with ⟨hsh, hh⟩
      exact ⟨hsh, by simp [mine, hh], hh⟩
    · have h0 : validate n0 m d = none :=
        hnone n0 (Nat.le_refl n0) (Nat.lt_of_le_of_ne h1 he)
      rcases ih (n0 + 1) n (by omega) (by omega)
          (fun k hk1 hk2 => hnone k (by omega) hk2) hsome with ⟨hsh, hmine, hval⟩
      exact ⟨hsh, by simp [mine, h0, hmine], hval⟩

/-- C2: whenever some nonce at or above the start nonce validates, `mine`
terminates (some fuel suffices) and returns the smallest qualifying nonce
with its digest; at difficulty 0 it returns the start nonce on the very
first iteration. -/
theorem mine_returns_least_nonce (m : String) (d n0 : Nat)
    (h : ∃ n, n0 ≤ n ∧ (validate n m d).isSome = true) :
    (∃ fuel n hsh, mine m d fuel n0 = some (n, hsh) ∧
       n0 ≤ n ∧ validate n m d = some hsh ∧
       ∀ k, n0 ≤ k → k < n → validate k m d = none)
    ∧ (d = 0 → mine m d 1 n0 = some (n0, sha256hash (natToDec n0 ++ ":" ++ m))) := by
  constructor
  · classical
    have hex : ∃ n, n0 ≤ n ∧ (validate n m d).isSome = true := h
    let n := Nat.find hex
    have hspec := Nat.find_spec hex
    have hmin : ∀ k, n0 ≤ k → k < n → validate k m d = none := by
      intro k hk1 hk2
      have := Nat.find_min hex hk2
      rw [not_and] at this
      exact Option.not_isSome_iff_eq_none.mp (by simpa using this hk1)
    rcases mine_reaches m d (n - n0 + 1) n0 n hspec.1 (by omega) hmin hspec.2
      with ⟨hsh, hmine, hval⟩
    exact ⟨n - n0 + 1, n, hsh, hmine, hspec.1, hval, hmin⟩
  · intro hd
    subst hd
    simp [mine, validate, verify]

/-- Witness for the above: difficulty 0 with start nonce 1 on the spec's
sample message succeeds immediately. -/
theorem mine_returns_least_nonce_witness :
    mine "A gives 42 to B" 0 1 1 =
      some (1, sha256hash (natToDec 1 ++ ":" ++ "A gives 42 to B")) :=
  (mine_returns_least_nonce "A gives 42 to B" 0 1
    ⟨1, Nat.le_refl 1, by decide⟩).2 rfl

/-! ### The ledger (broadcaster.TransactionDatabase) -/

/-- Embedding of the broadcaster.Transaction dataclass. -/
structure Transaction where
  id : Option Nat
  message_id : String
  difficulty : Nat
  message : String
  created_at : Option Nat := none
deriving DecidableEq

/-- Embedding of Transaction.__str__, the challenge wire form. -/
def Transaction.toWire (t : Transaction) : String :=
  "TX:" ++ t.message_id ++ ":" ++ natToDec t.difficulty ++ ":" ++ t.message

/-- A row of the awards table. -/
structure AwardRow where
  id : Nat
  user_nick : String
  transaction_id : Nat
  nonce : Nat
deriving DecidableEq

/-- Embedding of broadcaster.TransactionDatabase: the transactions and
awards tables, rows in insertion order, ids assigned sequentially. -/
structure TransactionDatabase where
  transactions : List Transaction
  awards : List AwardRow
deriving DecidableEq

/-- Embedding of TransactionDatabase.add_transaction: insert a row; the
stored row receives the next sequential id. -/
def TransactionDatabase.addTransaction (db : TransactionDatabase)
    (tr : Transaction) : TransactionDatabase :=
  { db with transactions :=
      db.transactions ++ [{ tr with id := some (db.transactions.length + 1) }] }

/-- Embedding of TransactionDatabase.get_transactions filtered on a
message id. -/
def TransactionDatabase.getTransactions (db : TransactionDatabase)
    (message_id : String) : List Transaction :=
  db.transactions.filter (fun t => t.message_id == message_id)

/-- Embedding of TransactionDatabase.get_transaction: first matching row
or none. -/
def TransactionDatabase.getTransaction (db : TransactionDatabase)
    (message_id : String) : Option Transaction :=
  (db.getTransactions message_id).head?

/-- Embedding of TransactionDatabase.check_award_exists: whether an award
row references this transaction's id. -/
def TransactionDatabase.checkAwardExists (db : TransactionDatabase)
    (tr : Transaction) : Bool :=
  db.awards.any (fun a => tr.id == some a.transaction_id)

/-- Embedding of TransactionDatabase.create_award: look up the
transaction, refuse if unknown or already awarded, otherwise insert the
award row and report success. -/
def TransactionDatabase.createAward (db : TransactionDatabase)
    (user_nick message_id : String) (nonce : Nat) : Bool × TransactionDatabase :=
  match db.getTransaction message_id with
  | none => (false, db)
  | some tr =>
    if db.checkAwardExists tr then (false, db)
    else
      (true, { db with awards :=
        db.awards ++ [⟨db.awards.length + 1, user_nick, tr.id.getD 0, nonce⟩] })

/-! ### The rate limiter (broadcaster.RateLimitDatabase) -/

/-- A row of the attempts table. -/
structure AttemptRow where
  id : Nat
  user_nick : String
  updated_at : Nat
deriving DecidableEq

/-- Embedding of broadcaster.RateLimitDatabase: the attempts table. -/
structure RateLimitDatabase where
  attempts : List AttemptRow
deriving DecidableEq

/-- The fixed cooldown, RateLimitDatabase.seconds_between_requests. -/
def secondsBetweenRequests : Nat := 5

/-- Embedding of RateLimitDatabase.check: allow when no row exists for
the user (inserting one stamped now) or when at least the cooldown has
elapsed (refreshing the stamp); refuse, touching nothing, otherwise.
Timestamps are seconds; `now` is the current clock reading. -/
def RateLimitDatabase.check (db : RateLimitDatabase) (user_nick : String)
    (now : Nat) : Bool × RateLimitDatabase :=
  match db.attempts.find? (fun r => r.user_nick == user_nick) with
  | some row =>
    if (now : Int) - (row.updated_at : Int) < (secondsBetweenRequests : Int) then
      (false, db)
    else
      let upd := fun r =>
        if r.id == row.id then { r with updated_at := now } else r
      (true, { attempts := db.attempts.map upd })
  | none =>
    (true, { attempts := db.attempts ++ [⟨db.attempts.length + 1, user_nick, now⟩] })

/-! ### The coordinator (broadcaster.Game and Broadcaster.process_inv) -/

/-- Embedding of broadcaster.Game: the ledger plus the coordinator's
current difficulty setting. -/
structure Game where
  db : TransactionDatabase
  difficulty : Nat
deriving DecidableEq

/-- Embedding of Game.create_transaction: Transaction.create_random draws
a random message id and message (taken here as oracle inputs), snapshots
the coordinator's current difficulty, and persists the row. -/
def Game.createTransaction (g : Game) (mid msg : String) : Transaction × Game :=
  let tr : Transaction :=
    { id := none, message_id := mid, difficulty := g.difficulty, message := msg }
  (tr, { g with db := g.db.addTransaction tr })

/-- Embedding of Game.get_transaction. -/
def Game.getTransaction (g : Game) (message_id : String) : Option Transaction :=
  g.db.getTransaction message_id

/-- Embedding of Game.create_award. -/
def Game.createAward (g : Game) (user_nick message_id : String) (nonce : Nat) :
    Bool × Game :=
  let r := g.db.createAward user_nick message_id nonce
  (r.1, { g with db := r.2 })

/-- Embedding of the cli sd command: assign the coordinator's difficulty
setting. -/
def Game.setDifficulty (g : Game) (d : Nat) : Game := { g with difficulty := d }

/-- The difficulty group of mine_rxp: one or two decimal digits followed
by a colon (two digits preferred, as the regex is greedy). -/
def parseDiff : List Char → Option (List Char × List Char)
  | a :: b :: rest =>
    if isDigitChar a then
      if isDigitChar b then
        match rest with
        | ':' :: rest2 => some ([a, b], rest2)
        | _ => none
      else if b == ':' then some ([a], rest)
      else none
    else none
  | _ => none

/-- The message id group of mine_rxp: exactly eight lowercase hex
characters followed by a colon. -/
def parseMid : List Char → Option (List Char × List Char)
  | c1 :: c2 :: c3 :: c4 :: c5 :: c6 :: c7 :: c8 :: ':' :: rest =>
    if [c1, c2, c3, c4, c5, c6, c7, c8].all isLowerHex then
      some ([c1, c2, c3, c4, c5, c6, c7, c8], rest)
    else none
  | _ => none

/-- The nonce group of mine_rxp: one or more decimal digits reaching the
end of the line. -/
def parseNonce (cs : List Char) : Option (List Char) :=
  if cs.isEmpty then none
  else if cs.all isDigitChar then some cs else none

/-- Embedding of broadcaster.mine_rxp: the anchored submission pattern
INV with difficulty, message id and nonce groups. -/
def parseInv (msg : String) : Option (List Char × List Char × List Char) :=
  match msg.data with
  | c1 :: c2 :: c3 :: c4 :: c5 :: rest =>
    if c1 == ':' && c2 == 'I' && c3 == 'N' && c4 == 'V' && c5 == ':' then
      match parseDiff rest with
      | none => none
      | some (d, rest1) =>
        match parseMid rest1 with
        | none => none
        | some (mid, rest2) =>
          match parseNonce rest2 with
          | none => none
          | some nonce => some (d, mid, nonce)
    else none
  | _ => none

/-- Python truthiness of an optional string: present and nonempty. -/
def pyTruthyStrOpt : Option String → Bool
  | none => false
  | some s => !s.isEmpty

/-- The Python exception a submission handler can raise. -/
inductive PyError where
  | attributeError
deriving DecidableEq

/-- Outcome of processing one submission: the updated game state and the
public channel announcements sent. -/
structure InvResult where
  game : Game
  announcements : List String
deriving DecidableEq

/-- Decidable equality of handler outcomes. -/
instance exceptDecEq {ε α : Type} [DecidableEq ε] [DecidableEq α] :
    DecidableEq (Except ε α)
  | Except.ok x, Except.ok y =>
    if h : x = y then isTrue (by rw [h])
    else isFalse (fun he => h (Except.ok.inj he))
  | Except.error x, Except.error y =>
    if h : x = y then isTrue (by rw [h])
    else isFalse (fun he => h (Except.error.inj he))
  | Except.ok _, Except.error _ => isFalse (fun he => Except.noConfusion he)
  | Except.error _, Except.ok _ => isFalse (fun he => Except.noConfusion he)

/-- Embedding of Broadcaster.process_inv: match the INV pattern, parse
the nonce, look the transaction up by message id (attribute access on the
result raises when it is absent), validate against the stored message and
difficulty, record the award, and announce the winner only on a true
return. The matched difficulty group is bound but never used. -/
def processInv (g : Game) (user_nick : String) (msg : String) :
    Except PyError InvResult :=
  match parseInv msg with
  | none => Except.ok ⟨g, []⟩
  | some (_, midChars, nonceChars) =>
    let message_id := String.mk midChars
    let nonce := decToNat nonceChars
    match g.getTransaction message_id with
    | none => Except.error PyError.attributeError
    | some tr =>
      if pyTruthyStrOpt (validate nonce tr.message tr.difficulty) then
        let r := g.createAward user_nick message_id nonce
        if r.1 then
          Except.ok ⟨r.2, [user_nick ++ " successfully mined " ++ message_id]⟩
        else
          Except.ok ⟨r.2, []⟩
      else
        Except.ok ⟨g, []⟩

/-! ### The codec decoder (myclient.MinerClient.mine) -/

/-- Prepend a character to the first segment of a split result. -/
def consHead (c : Char) : List (List Char) → List (List Char)
  | h :: t => (c :: h) :: t
  | [] => [[c]]

/-- Embedding of Python str.split on a colon separator. -/
def splitOnColon : List Char → List (List Char)
  | [] => [[]]
  | c :: rest =>
    if c == ':' then [] :: splitOnColon rest
    else consHead c (splitOnColon rest)

/-- Embedding of the destructuring msg.split in MinerClient.mine: the
line must split into exactly five colon-separated fields (leading empty
field, TX tag, message id, difficulty, payload); anything else raises
ValueError, modelled as none. -/
def decodeTx (msg : String) : Option (String × String × String × String × String) :=
  match splitOnColon msg.data with
  | [a, b, c, d, e] =>
    some (String.mk a, String.mk b, String.mk c, String.mk d, String.mk e)
  | _ => none

/-- The line MinerClient.mine reassembles for a broadcast challenge: the
IRC trailing colon followed by the encoded transaction. -/
def wireLine (t : Transaction) : String := ":" ++ t.toWire

/-! ### Claims about the coordinator state -/

/-- C9: a created transaction snapshots the coordinator's difficulty; the
stored copy carries that snapshot; assigning a new difficulty setting, and
recording awards, leave every stored transaction untouched. -/
theorem transaction_difficulty_snapshot (g : Game) (mid msg : String)
    (d' : Nat) (u mid2 : String) (n : Nat) :
    ((g.createTransaction mid msg).1.difficulty = g.difficulty)
    ∧ ((g.createTransaction mid msg).2.db.transactions.map Transaction.difficulty
        = g.db.transactions.map Transaction.difficulty ++ [g.difficulty])
    ∧ ((g.setDifficulty d').db = g.db)
    ∧ ((g.createAward u mid2 n).2.db.transactions = g.db.transactions) := by
  refine ⟨rfl, ?_, rfl, ?_⟩
  · simp [Game.createTransaction, TransactionDatabase.addTransaction]
  · show (g.db.createAward u mid2 n).2.transactions = g.db.transactions
    unfold TransactionDatabase.createAward
    cases h : g.db.getTransaction mid2 with
    | none => rfl
    | some tr => dsimp only; split <;> rfl

/-! ### Claims about the award ledger -/

theorem createAward_transactions (db : TransactionDatabase) (u mid : String)
    (n : Nat) : (db.createAward u mid n).2.transactions = db.transactions := by
  unfold TransactionDatabase.createAward
  cases h : db.getTransaction mid with
  | none => rfl
  | some tr => dsimp only; split <;> rfl

theorem createAward_blocked (db : TransactionDatabase) (mid : String)
    (tr : Transaction) (u : String) (n : Nat)
    (hget : db.getTransaction mid = some tr)
    (hex : db.checkAwardExists tr = true) :
    db.createAward u mid n = (false, db) := by
  unfold TransactionDatabase.createAward
  rw [hget]
  simp [hex]

theorem createAward_false_state (db : TransactionDatabase) (u mid : String)
    (n : Nat) (h : (db.createAward u mid n).1 = false) :
    (db.createAward u mid n).2 = db := by
  unfold TransactionDatabase.createAward at h ⊢
  cases hget : db.getTransaction mid with
  | none => rfl
  | some tr =>
    rw [hget] at h
    dsimp only at h ⊢
    split at h
    · simp_all
    · simp_all

theorem createAward_true (db : TransactionDatabase) (u mid : String) (n : Nat)
    (h : (db.createAward u mid n).1 = true) :
    ∃ tr, db.getTransaction mid = some tr ∧ db.checkAwardExists tr = false ∧
      (db.createAward u mid n).2 =
        { db with awards :=
            db.awards ++ [⟨db.awards.length + 1, u, tr.id.getD 0, n⟩] } := by
  unfold TransactionDatabase.createAward at h ⊢
  cases hget : db.getTransaction mid with
  | none => rw [hget] at h; simp_all
  | some tr =>
    rw [hget] at h
    dsimp only at h ⊢
    split at h
    · simp_all
    · rename_i hex
      exact ⟨tr, rfl, by simpa using hex, by simp [hex]⟩

theorem getTransaction_mem (db : TransactionDatabase) (mid : String)
    (tr : Transaction) (h : db.getTransaction mid = some tr) :
    tr ∈ db.transactions := by
  unfold TransactionDatabase.getTransaction TransactionDatabase.getTransactions at h
  cases hf : List.filter (fun t => t.message_id == mid) db.transactions with
  | nil => rw [hf] at h; cases h
  | cons a t =>
    rw [hf] at h
    simp only [List.head?] at h
    injection h with heq
    subst heq
    exact List.mem_of_mem_filter (by rw [hf]; exact List.mem_cons_self _ _)

/-- A sequence of create_award calls all targeting one message id,
returning the list of results and the final ledger state. -/
def runAwardCalls (db : TransactionDatabase) (mid : String) :
    List (String × Nat) → List Bool × TransactionDatabase
  | [] => ([], db)
  | c :: rest =>
    ((db.createAward c.1 mid c.2).1 ::
        (runAwardCalls (db.createAward c.1 mid c.2).2 mid rest).1,
      (runAwardCalls (db.createAward c.1 mid c.2).2 mid rest).2)

theorem runAwardCalls_blocked (mid : String) (tr : Transaction) :
    ∀ (calls : List (String × Nat)) (db : TransactionDatabase),
      db.getTransaction mid = some tr → db.checkAwardExists tr = true →
      runAwardCalls db mid calls = (List.replicate calls.length false, db) := by
  intro calls
  induction calls with
  | nil => intro db _ _; rfl
  | cons c rest ih =>
    intro db hget hex
    have hb := createAward_blocked db mid tr c.1 c.2 hget hex
    simp only [runAwardCalls, hb, ih db hget hex, List.length_cons,
      List.replicate_succ]

/-- C3: over any sequence of create_award calls targeting one stored
transaction, at most one returns true; and once an award exists for the
transaction, any create_award call for it returns false with the ledger
unchanged, whatever the user or nonce. -/
theorem award_at_most_once (db : TransactionDatabase) (mid : String)
    (hwf : ∀ t ∈ db.transactions, t.id.isSome = true)
    (calls : List (String × Nat)) (tr : Transaction) (u : String) (n : Nat) :
    ((runAwardCalls db mid calls).1.count true ≤ 1)
    ∧ (db.getTransaction mid = some tr → db.checkAwardExists tr = true →
        db.createAward u mid n = (false, db)) := by
  refine ⟨?_, fun hget hex => createAward_blocked db mid tr u n hget hex⟩
  induction calls generalizing db with
  | nil => simp [runAwardCalls]
  | cons c rest ih =>
    simp only [runAwardCalls]
    cases hb : (db.createAward c.1 mid c.2).1 with
    | false =>
      have hst := createAward_false_state db c.1 mid c.2 hb
      rw [hst, List.count_cons]
      simpa using ih db hwf
    | true =>
      rcases createAward_true db c.1 mid c.2 hb with ⟨tr', hget, _, hdb'⟩
      have hmem := getTransaction_mem db mid tr' hget
      rcases Option.isSome_iff_exists.mp (hwf tr' hmem) with ⟨i, hi⟩
      have hget' : (db.createAward c.1 mid c.2).2.getTransaction mid = some tr' := by
        rw [hdb']
        exact hget
      have hex' : (db.createAward c.1 mid c.2).2.checkAwardExists tr' = true := by
        rw [hdb']
        show (db.awards ++
            [(⟨db.awards.length + 1, c.1, tr'.id.getD 0, c.2⟩ : AwardRow)]).any
          (fun a => tr'.id == some a.transaction_id) = true
        rw [List.any_append]
        simp [hi]
      rw [runAwardCalls_blocked mid tr' rest _ hget' hex']
      simp [List.count_cons, List.count_replicate]

/-- Witness for the above: three racing submissions for a fresh stored
transaction; exactly one wins. -/
theorem award_at_most_once_witness :
    ((runAwardCalls ⟨[⟨some 1, "aaaaaaaa", 0, "m", none⟩], []⟩ "aaaaaaaa"
        [("bob", 5), ("eve", 6), ("bob", 7)]).1.count true ≤ 1)
    ∧ ((⟨[⟨some 1, "aaaaaaaa", 0, "m", none⟩], []⟩ :
          TransactionDatabase).getTransaction "aaaaaaaa" =
            some ⟨some 1, "aaaaaaaa", 0, "m", none⟩ →
        TransactionDatabase.checkAwardExists
          ⟨[⟨some 1, "aaaaaaaa", 0, "m", none⟩], []⟩
          ⟨some 1, "aaaaaaaa", 0, "m", none⟩ = true →
        TransactionDatabase.createAward
          ⟨[⟨some 1, "aaaaaaaa", 0, "m", none⟩], []⟩ "carol" "aaaaaaaa" 9 =
          (false, ⟨[⟨some 1, "aaaaaaaa", 0, "m", none⟩], []⟩)) :=
  award_at_most_once ⟨[⟨some 1, "aaaaaaaa", 0, "m", none⟩], []⟩ "aaaaaaaa"
    (by decide) [("bob", 5), ("eve", 6), ("bob", 7)]
    ⟨some 1, "aaaaaaaa", 0, "m", none⟩ "carol" 9

/-! ### Claims about the rate limiter -/

theorem find?_map_update (l : List AttemptRow) (user : String)
    (row : AttemptRow) (now : Nat)
    (h : l.find? (fun r => r.user_nick == user) = some row) :
    (l.map (fun r => if r.id == row.id then { r with updated_at := now } else r)).find?
        (fun r => r.user_nick == user) = some { row with updated_at := now } := by
  induction l with
  | nil => cases h
  | cons a t ih =>
    rw [List.find?_cons] at h
    rw [List.map_cons, List.find?_cons]
    have huser : (if a.id == row.id then { a with updated_at := now } else a).user_nick
        = a.user_nick := by
      split <;> rfl
    cases hp : (a.user_nick == user) with
    | true =>
      rw [hp] at h
      injection h with heq
      subst heq
      simp [hp]
    | false =>
      rw [hp] at h
      simp only [huser, hp]
      exact ih h

/-- C6: check allows exactly when no attempts row exists for the user or
at least the five-second cooldown has elapsed since its stored timestamp;
a disallowed check leaves the whole table untouched, and an allowed check
stamps the user's row with the current time. -/
theorem rate_limiter_check_spec (db : RateLimitDatabase) (user : String)
    (now : Nat) :
    ((db.check user now).1 = true ↔
      ∀ row ∈ db.attempts.find? (fun r => r.user_nick == user),
        (secondsBetweenRequests : Int) ≤ (now : Int) - (row.updated_at : Int))
    ∧ ((db.check user now).1 = false → (db.check user now).2 = db)
    ∧ ((db.check user now).1 = true →
        ∃ row', (db.check user now).2.attempts.find? (fun r => r.user_nick == user) =
            some row' ∧ row'.user_nick = user ∧ row'.updated_at = now) := by
  cases hf : db.attempts.find? (fun r => r.user_nick == user) with
  | none =>
    have hck : db.check user now =
        (true, ⟨db.attempts ++ [⟨db.attempts.length + 1, user, now⟩]⟩) := by
      unfold RateLimitDatabase.check
      rw [hf]
    rw [hck]
    refine ⟨by simp [hf], by simp, fun _ => ?_⟩
    refine ⟨⟨db.attempts.length + 1, user, now⟩, ?_, rfl, rfl⟩
    dsimp only
    rw [List.find?_append, hf, Option.none_or]
    exact List.find?_cons_of_pos _ (by simp)
  | some row =>
    have hrowu : row.user_nick = user := by
      have := List.find?_some hf
      simpa using this
    by_cases hlt :
        (now : Int) - (row.updated_at : Int) < (secondsBetweenRequests : Int)
    · have hck : db.check user now = (false, db) := by
        unfold RateLimitDatabase.check
        rw [hf]
        dsimp only
        rw [if_pos hlt]
      rw [hck]
      refine ⟨?_, fun _ => rfl, by simp⟩
      simp only [hf]
      constructor
      · intro h; cases h
      · intro h
        have := h row rfl
        omega
    · have hck : db.check user now =
          (true, ⟨db.attempts.map
            (fun r => if r.id == row.id then { r with updated_at := now } else r)⟩) := by
        unfold RateLimitDatabase.check
        rw [hf]
        dsimp only
        rw [if_neg hlt]
      rw [hck]
      refine ⟨?_, by simp, fun _ => ?_⟩
      · simp only [hf]
        constructor
        · intro _ r hr
          rw [Option.mem_def, Option.some_inj] at hr
          subst hr
          omega
        · intro _; trivial
      · exact ⟨{ row with updated_at := now },
          find?_map_update db.attempts user row now hf, hrowu, rfl⟩

/-- Witness for the above: the cooldown has just elapsed, so the check
allows and restamps the row. -/
theorem rate_limiter_check_spec_witness :
    ∃ row', ((RateLimitDatabase.check ⟨[⟨1, "u", 100⟩]⟩ "u" 105).2.attempts.find?
        (fun r => r.user_nick == "u")) = some row' ∧
      row'.user_nick = "u" ∧ row'.updated_at = 105 :=
  (rate_limiter_check_spec ⟨[⟨1, "u", 100⟩]⟩ "u" 105).2.2 (by decide)

/-! ### Decimal digit and split lemmas for the codec -/

theorem digitChar_isDigit (k : Nat) : isDigitChar (digitChar k) = true := by
  unfold digitChar
  split <;> decide

theorem digitChar_toNat (k : Nat) (h : k < 10) : (digitChar k).toNat = 48 + k := by
  interval_cases k <;> decide

theorem decDigitsAux_digits (fuel : Nat) :
    ∀ n, ∀ c ∈ decDigitsAux fuel n, isDigitChar c = true := by
  induction fuel with
  | zero => intro n c hc; cases hc
  | succ fuel ih =>
    intro n c hc
    unfold decDigitsAux at hc
    split at hc
    · rcases List.mem_singleton.mp hc with rfl
      exact digitChar_isDigit n
    · rcases List.mem_append.mp hc with h | h
      · exact ih _ c h
      · rcases List.mem_singleton.mp h with rfl
        exact digitChar_isDigit _

theorem natToDec_digits (n : Nat) :
    ∀ c ∈ (natToDec n).data, isDigitChar c = true :=
  decDigitsAux_digits (n + 1) n

theorem isDigitChar_ne_colon (c : Char) (h : isDigitChar c = true) : c ≠ ':' := by
  intro he
  subst he
  exact absurd h (by decide)

theorem decDigitsAux_foldl (fuel : Nat) :
    ∀ n acc, n < fuel →
      (decDigitsAux fuel n).foldl (fun a c => a * 10 + (c.toNat - 48)) acc =
        acc * 10 ^ (decDigitsAux fuel n).length + n := by
  induction fuel with
  | zero => intro n acc h; omega
  | succ fuel ih =>
    intro n acc h
    unfold decDigitsAux
    split
    · rename_i h10
      simp only [List.foldl, List.length_cons, List.length_nil, pow_one]
      rw [digitChar_toNat n h10]
      omega
    · rename_i h10
      push_neg at h10
      have hdiv : n / 10 < fuel := by
        have := Nat.div_lt_self (show 0 < n by omega) (show 1 < 10 by omega)
        omega
      rw [List.foldl_append, ih (n / 10) acc hdiv]
      simp only [List.foldl, List.length_append, List.length_singleton]
      rw [digitChar_toNat (n % 10) (Nat.mod_lt _ (by omega))]
      have hmod : 48 + n % 10 - 48 = n % 10 := by omega
      rw [hmod]
      calc (acc * 10 ^ (decDigitsAux fuel (n / 10)).length + n / 10) * 10 + n % 10
          = acc * (10 ^ (decDigitsAux fuel (n / 10)).length * 10) +
              (10 * (n / 10) + n % 10) := by ring
        _ = acc * 10 ^ ((decDigitsAux fuel (n / 10)).length + 1) + n := by
              rw [← pow_succ, Nat.div_add_mod]

theorem decToNat_natToDec (n : Nat) : decToNat (natToDec n).data = n := by
  have := decDigitsAux_foldl (n + 1) n 0 (by omega)
  simpa [decToNat, natToDec] using this

theorem splitOnColon_no_colon (l : List Char) (h : ∀ c ∈ l, c ≠ ':') :
    splitOnColon l = [l] := by
  induction l with
  | nil => rfl
  | cons c rest ih =>
    have hc : (c == ':') = false := by
      simpa using h c (List.mem_cons_self c rest)
    have ih' := ih (fun x hx => h x (List.mem_cons_of_mem c hx))
    simp [splitOnColon, hc, ih', consHead]

theorem splitOnColon_append (l : List Char) (rest : List Char)
    (h : ∀ c ∈ l, c ≠ ':') :
    splitOnColon (l ++ ':' :: rest) = l :: splitOnColon rest := by
  induction l with
  | nil => simp [splitOnColon]
  | cons c t ih =>
    have hc : (c == ':') = false := by
      simpa using h c (List.mem_cons_self c t)
    have ih' := ih (fun x hx => h x (List.mem_cons_of_mem c hx))
    simp [List.cons_append, splitOnColon, hc, ih', consHead]

theorem wireLine_data (t : Transaction) :
    (wireLine t).data = ':' :: (['T', 'X'] ++ ':' ::
      (t.message_id.data ++ ':' ::
        ((natToDec t.difficulty).data ++ ':' :: t.message.data))) := by
  simp [wireLine, Transaction.toWire, String.data_append]

/-! ### Claims about the wire codec -/

/-- C7 counterexample: a payload containing a colon does not survive the
round trip; the decode side splits on every colon and refuses the line. -/
theorem codec_roundtrip_counterexample :
    decodeTx (wireLine ⟨none, "00000000", 1, "a:b", none⟩) = none ∧
    decodeTx (wireLine ⟨none, "00000000", 1, "a:b", none⟩) ≠
      some ("", "TX", "00000000", natToDec 1, "a:b") := by
  constructor <;> decide

/-- C7 amended: the round trip through the wire form reproduces
message id, difficulty and message exactly whenever the message id and
the payload contain no colon (the difficulty, rendered in decimal, never
does); the decoded difficulty string parses back to the stored value. -/
theorem codec_roundtrip_no_colon (t : Transaction)
    (hmid : ∀ c ∈ t.message_id.data, c ≠ ':')
    (hmsg : ∀ c ∈ t.message.data, c ≠ ':') :
    decodeTx (wireLine t) =
      some ("", "TX", t.message_id, natToDec t.difficulty, t.message)
    ∧ decToNat (natToDec t.difficulty).data = t.difficulty := by
  refine ⟨?_, decToNat_natToDec t.difficulty⟩
  have hdec : ∀ c ∈ (natToDec t.difficulty).data, c ≠ ':' :=
    fun c hc => isDigitChar_ne_colon c (natToDec_digits t.difficulty c hc)
  have hTX : ∀ c ∈ (['T', 'X'] : List Char), c ≠ ':' := by decide
  unfold decodeTx
  rw [wireLine_data]
  have s0 : ∀ l : List Char, splitOnColon (':' :: l) = [] :: splitOnColon l := by
    intro l
    simp [splitOnColon]
  rw [s0, splitOnColon_append _ _ hTX, splitOnColon_append _ _ hmid,
    splitOnColon_append _ _ hdec, splitOnColon_no_colon _ hmsg]

/-- Witness for the amended round trip on a concrete transaction. -/
theorem codec_roundtrip_no_colon_witness :
    decodeTx (wireLine ⟨none, "00000000", 12, "hello world", none⟩) =
      some ("", "TX", "00000000", natToDec 12, "hello world")
    ∧ decToNat (natToDec 12).data = 12 :=
  codec_roundtrip_no_colon ⟨none, "00000000", 12, "hello world", none⟩
    (by decide) (by decide)

/-! ### Claims about submission processing -/

/-- C4: the claim says an unknown message id is handled non-fatally; in
the code, process_inv reads the message attribute of the failed lookup's
None result, raising AttributeError. Here the ledger is empty and a
well-formed INV for an unknown id makes the handler raise. -/
theorem processInv_unknown_mid_raises :
    processInv ⟨⟨[], []⟩, 0⟩ "alice" ":INV:1:deadbeef:7" =
      Except.error PyError.attributeError := by decide

/-- A valid difficulty group for mine_rxp: one or two decimal digits. -/
abbrev validDiffChars (d : List Char) : Prop :=
  (d.length = 1 ∨ d.length = 2) ∧ ∀ c ∈ d, isDigitChar c = true

theorem parseDiff_valid (d : List Char) (hd : validDiffChars d)
    (rest : List Char) : parseDiff (d ++ ':' :: rest) = some (d, rest) := by
  have hcd : isDigitChar ':' = false := by decide
  rcases hd with ⟨hlen, hdig⟩
  rcases hlen with h1 | h2
  · rcases List.length_eq_one.mp h1 with ⟨a, rfl⟩
    have ha := hdig a (by simp)
    simp [parseDiff, ha, hcd]
  · rcases List.length_eq_two.mp h2 with ⟨a, b, rfl⟩
    have ha := hdig a (by simp)
    have hb := hdig b (by simp)
    simp [parseDiff, ha, hb]

/-- The submission line carrying the given difficulty, message id and
nonce groups. -/
def mkInvLine (d mid nonce : List Char) : String :=
  String.mk (':' :: 'I' :: 'N' :: 'V' :: ':' :: (d ++ ':' :: (mid ++ ':' :: nonce)))

theorem parseInv_mkInvLine (d mid nonce : List Char) (hd : validDiffChars d) :
    parseInv (mkInvLine d mid nonce) =
      match parseMid (mid ++ ':' :: nonce) with
      | none => none
      | some (m, r2) =>
        match parseNonce r2 with
        | none => none
        | some nn => some (d, m, nn) := by
  have step : parseInv (mkInvLine d mid nonce) =
      match parseDiff (d ++ ':' :: (mid ++ ':' :: nonce)) with
      | none => none
      | some (dd, rest1) =>
        match parseMid rest1 with
        | none => none
        | some (m, rest2) =>
          match parseNonce rest2 with
          | none => none
          | some nn => some (dd, m, nn) := rfl
  rw [step, parseDiff_valid d hd]

/-- C5: two submissions identical except for the (one or two digit)
difficulty field are processed identically: same validation outcome, same
award outcome, same announcements, same resulting state. -/
theorem submission_difficulty_field_ignored (g : Game) (u : String)
    (d1 d2 mid nonce : List Char)
    (h1 : validDiffChars d1) (h2 : validDiffChars d2) :
    processInv g u (mkInvLine d1 mid nonce) =
      processInv g u (mkInvLine d2 mid nonce) := by
  unfold processInv
  rw [parseInv_mkInvLine d1 mid nonce h1, parseInv_mkInvLine d2 mid nonce h2]
  cases hm : parseMid (mid ++ ':' :: nonce) with
  | none => rfl
  | some p =>
    rcases p with ⟨m, r2⟩
    dsimp only
    cases hn : parseNonce r2 with
    | none => rfl
    | some nn => rfl

/-- Witness for the above: forged difficulty 99 versus difficulty 1. -/
theorem submission_difficulty_field_ignored_witness :
    processInv ⟨⟨[⟨some 1, "deadbeef", 0, "m", none⟩], []⟩, 0⟩ "bob"
        (mkInvLine ['1'] ['d', 'e', 'a', 'd', 'b', 'e', 'e', 'f'] ['5']) =
      processInv ⟨⟨[⟨some 1, "deadbeef", 0, "m", none⟩], []⟩, 0⟩ "bob"
        (mkInvLine ['9', '9'] ['d', 'e', 'a', 'd', 'b', 'e', 'e', 'f'] ['5']) :=
  submission_difficulty_field_ignored _ "bob" _ _ _ _ (by decide) (by decide)

/-- C8: a processed submission that completes without raising announces a
winner exactly when validation against the ledger-stored transaction
succeeds and the award insert returns true; on validation failure or a
false award return, nothing is announced. -/
theorem announcement_iff_validate_and_award (g : Game) (u msg : String)
    (res : InvResult) (h : processInv g u msg = Except.ok res) :
    res.announcements ≠ [] ↔
      ∃ d mid nonce tr, parseInv msg = some (d, mid, nonce) ∧
        g.getTransaction (String.mk mid) = some tr ∧
        pyTruthyStrOpt (validate (decToNat nonce) tr.message tr.difficulty) = true ∧
        (g.createAward u (String.mk mid) (decToNat nonce)).1 = true := by
  unfold processInv at h
  cases hp : parseInv msg with
  | none =>
    rw [hp] at h
    injection h with h
    subst h
    constructor
    · intro hne; exact absurd rfl hne
    · rintro ⟨d', mid', nonce', tr', hp', _, _, _⟩
      cases hp'
  | some trip =>
    rcases trip with ⟨d, mid, nonce⟩
    rw [hp] at h
    dsimp only at h
    cases hg : g.getTransaction (String.mk mid) with
    | none =>
      rw [hg] at h
      cases h
    | some tr =>
      rw [hg] at h
      dsimp only at h
      by_cases hv :
          pyTruthyStrOpt (validate (decToNat nonce) tr.message tr.difficulty) = true
      · rw [if_pos hv] at h
        by_cases ha : (g.createAward u (String.mk mid) (decToNat nonce)).1 = true
        · rw [if_pos ha] at h
          injection h with h
          subst h
          constructor
          · intro _
            exact ⟨d, mid, nonce, tr, rfl, hg, hv, ha⟩
          · intro _
            simp
        · rw [if_neg ha] at h
          injection h with h
          subst h
          constructor
          · intro hne; exact absurd rfl hne
          · rintro ⟨d', mid', nonce', tr', hp', hg', hv', ha'⟩
            injection hp' with he
            cases he
            exact absurd ha' ha
      · rw [if_neg hv] at h
        injection h with h
        subst h
        constructor
        · intro hne; exact absurd rfl hne
        · rintro ⟨d', mid', nonce', tr', hp', hg', hv', ha'⟩
          injection hp' with he
          cases he
          rw [hg] at hg'
          injection hg' with he2
          cases he2
          exact absurd hv' hv

/-- Witness for the above: a difficulty 0 transaction is announced for
its first valid submission. -/
theorem announcement_iff_validate_and_award_witness :
    (InvResult.mk
        ⟨⟨[⟨some 1, "aaaaaaaa", 0, "m", none⟩], [⟨1, "bob", 1, 5⟩]⟩, 0⟩
        ["bob successfully mined aaaaaaaa"]).announcements ≠ [] ↔
      ∃ d mid nonce tr,
        parseInv ":INV:0:aaaaaaaa:5" = some (d, mid, nonce) ∧
        Game.getTransaction ⟨⟨[⟨some 1, "aaaaaaaa", 0, "m", none⟩], []⟩, 0⟩
          (String.mk mid) = some tr ∧
        pyTruthyStrOpt (validate (decToNat nonce) tr.message tr.difficulty) = true ∧
        (Game.createAward ⟨⟨[⟨some 1, "aaaaaaaa", 0, "m", none⟩], []⟩, 0⟩ "bob"
          (String.mk mid) (decToNat nonce)).1 = true :=
  announcement_iff_validate_and_award
    ⟨⟨[⟨some 1, "aaaaaaaa", 0, "m", none⟩], []⟩, 0⟩ "bob" ":INV:0:aaaaaaaa:5"
    (InvResult.mk
      ⟨⟨[⟨some 1, "aaaaaaaa", 0, "m", none⟩], [⟨1, "bob", 1, 5⟩]⟩, 0⟩
      ["bob successfully mined aaaaaaaa"])
    (by decide)

end Pycon
